import Mathlib

/-!
Verification of `plydata/utils.py`: the column-label collapser
(`collapse_multiindex`), the index guard (`regular_index`), the
order-preserving `unique` filter, and the `temporary_key` context manager.
Each Python function is shallowly embedded as an executable Lean definition
and the spec's claims about them are settled as theorems.
-/

namespace Plydata

/-! ## Column-label collapser (`collapse_multiindex`) -/

/-- Python `x[-(k):]` on a tuple of tokens: the last `k` tokens (for `k ≥ 1`). -/
def lastTokens (k : Nat) (x : List String) : List String :=
  x.drop (x.length - k)

/-- The inner helper of `collapse_multiindex`:
`def is_unique(lst): return len(set(lst)) == len(lst)`. -/
def is_unique (lst : List (List String)) : Bool :=
  lst.dedup.length == lst.length

/-- Python `sep.join(tokens)`: concatenate the tokens with `sep` between
consecutive tokens. -/
def sepJoin (sep : String) : List String → String
  | [] => ""
  | [x] => x
  | x :: y :: rest => x ++ sep ++ sepJoin sep (y :: rest)

/-- Character-level counterpart of `sepJoin`, used for reasoning about the
joined strings. -/
def joinL (sep : List Char) : List (List Char) → List Char
  | [] => []
  | [x] => x
  | x :: y :: rest => x ++ sep ++ joinL sep (y :: rest)

/-- The `for i in range(nlevels)` loop with its `break`: returns the first
`i` in `[start, start+fuel)` whose length-`(i+1)` suffixes are pairwise
distinct, or `none` when the loop exhausts (the Python for-else arm). -/
def firstUniqueSuffix (midx : List (List String)) : Nat → Nat → Option Nat
  | 0, _ => none
  | fuel + 1, i =>
      if is_unique (midx.map (lastTokens (i + 1))) then some i
      else firstUniqueSuffix midx fuel (i + 1)

/-- `collapse_multiindex(midx, sep)`: find the smallest suffix length
`i+1` (for `i in range(nlevels)`) making the per-column token suffixes
pairwise distinct, then join each chosen suffix with `sep`.
`none` models `raise ValueError("Cannot create unique column names.")`. -/
def collapse_multiindex (nlevels : Nat) (midx : List (List String))
    (sep : String) : Option (List String) :=
  match firstUniqueSuffix midx nlevels 0 with
  | some i => some (midx.map (fun x => sepJoin sep (lastTokens (i + 1) x)))
  | none => none

example : collapse_multiindex 2 [["a", "1"], ["a", "2"]] "_" =
    some ["1", "2"] := by decide

example : collapse_multiindex 2 [["a", "1"], ["a", "2"], ["b", "1"], ["b", "2"]] "_" =
    some ["a_1", "a_2", "b_1", "b_2"] := by decide

example : collapse_multiindex 2 [["a", "1"], ["a", "1"]] "_" = none := by decide

example : collapse_multiindex 2 [["a_b", "c"], ["a", "b_c"], ["q", "c"]] "_" =
    some ["a_b_c", "a_b_c", "q_c"] := by decide

/-- The helper `is_unique` decides pairwise distinctness (`List.Nodup`). -/
lemma is_unique_iff_nodup (lst : List (List String)) :
    is_unique lst = true ↔ lst.Nodup := by
  unfold is_unique
  rw [beq_iff_eq]
  constructor
  · intro h
    have hsub : List.Sublist lst.dedup lst := List.dedup_sublist lst
    have heq : lst.dedup = lst := hsub.eq_of_length h
    rw [← heq]
    exact lst.nodup_dedup
  · intro h
    rw [List.dedup_eq_self.mpr h]

/-- When the loop returns `some i`, the suffixes of length `i + 1` are
pairwise distinct and `i` is minimal in the scanned range. -/
lemma firstUniqueSuffix_some_spec (midx : List (List String)) :
    ∀ fuel start i, firstUniqueSuffix midx fuel start = some i →
      start ≤ i ∧ i < start + fuel ∧
      is_unique (midx.map (lastTokens (i + 1))) = true ∧
      ∀ j, start ≤ j → j < i →
        is_unique (midx.map (lastTokens (j + 1))) = false := by
  intro fuel
  induction fuel with
  | zero =>
    intro start i h
    simp [firstUniqueSuffix] at h
  | succ n ih =>
    intro start i h
    unfold firstUniqueSuffix at h
    by_cases hc : is_unique (midx.map (lastTokens (start + 1))) = true
    · rw [if_pos hc] at h
      obtain rfl : start = i := Option.some.inj h
      refine ⟨le_refl _, by omega, hc, fun j h1 h2 => absurd (lt_of_le_of_lt h1 h2) (lt_irrefl _)⟩
    · rw [if_neg hc] at h
      obtain ⟨hi1, hi2, hi3, hi4⟩ := ih (start + 1) i h
      refine ⟨by omega, by omega, hi3, fun j h1 h2 => ?_⟩
      rcases Nat.eq_or_lt_of_le h1 with heq | hlt
      · subst heq
        exact Bool.not_eq_true _ ▸ (by simpa using hc)
      · exact hi4 j hlt h2

/-- The loop returns `none` exactly when no suffix length in the scanned
range gives pairwise-distinct suffixes. -/
lemma firstUniqueSuffix_none_iff (midx : List (List String)) :
    ∀ fuel start, firstUniqueSuffix midx fuel start = none ↔
      ∀ j, start ≤ j → j < start + fuel →
        is_unique (midx.map (lastTokens (j + 1))) = false := by
  intro fuel
  induction fuel with
  | zero =>
    intro start
    constructor
    · intro _ j h1 h2
      omega
    · intro _
      rfl
  | succ n ih =>
    intro start
    unfold firstUniqueSuffix
    by_cases hc : is_unique (midx.map (lastTokens (start + 1))) = true
    · rw [if_pos hc]
      constructor
      · intro h
        exact absurd h (by simp)
      · intro h
        have := h start (le_refl _) (by omega)
        rw [hc] at this
        exact absurd this (by simp)
    · rw [if_neg hc]
      rw [ih (start + 1)]
      constructor
      · intro h j h1 h2
        rcases Nat.eq_or_lt_of_le h1 with heq | hlt
        · subst heq
          simpa using hc
        · exact h j hlt (by omega)
      · intro h j h1 h2
        exact h j (by omega) (by omega)

/-- C1 (confirmed): whenever `collapse_multiindex` succeeds, the output is
obtained from the smallest suffix length `i` in `1..L` whose per-column
last-`i`-token suffixes are pairwise distinct, joining each suffix with the
separator in original column order. -/
theorem collapse_multiindex_minimal_suffix (nlevels : Nat)
    (midx : List (List String)) (sep : String) (out : List String)
    (h : collapse_multiindex nlevels midx sep = some out) :
    ∃ i, 1 ≤ i ∧ i ≤ nlevels ∧
      (midx.map (lastTokens i)).Nodup ∧
      (∀ j, 1 ≤ j → j < i → ¬ (midx.map (lastTokens j)).Nodup) ∧
      out = midx.map (fun x => sepJoin sep (lastTokens i x)) := by
  unfold collapse_multiindex at h
  rcases hfind : firstUniqueSuffix midx nlevels 0 with _ | i
  · rw [hfind] at h
    exact absurd h (by simp)
  · rw [hfind] at h
    obtain ⟨_, h2, h3, h4⟩ := firstUniqueSuffix_some_spec midx nlevels 0 i hfind
    refine ⟨i + 1, by omega, by omega, (is_unique_iff_nodup _).mp h3, ?_, ?_⟩
    · intro j hj1 hj2
      have hj : j - 1 + 1 = j := by omega
      have := h4 (j - 1) (Nat.zero_le _) (by omega)
      rw [hj] at this
      rw [← is_unique_iff_nodup]
      simp [this]
    · exact (Option.some.inj h).symm

/-- Witness for C1 at a concrete input: collapsing
`[(a,1), (a,2)]` yields `[1, 2]` via minimal suffix length `1`. -/
theorem collapse_multiindex_minimal_suffix_witness :
    ∃ i, 1 ≤ i ∧ i ≤ 2 ∧
      ([["a", "1"], ["a", "2"]].map (lastTokens i)).Nodup ∧
      (∀ j, 1 ≤ j → j < i → ¬ ([["a", "1"], ["a", "2"]].map (lastTokens j)).Nodup) ∧
      ["1", "2"] = [["a", "1"], ["a", "2"]].map
        (fun x => sepJoin "_" (lastTokens i x)) :=
  collapse_multiindex_minimal_suffix 2 [["a", "1"], ["a", "2"]] "_" ["1", "2"] (by decide)

/-- A full-length suffix of a label tuple with exactly `n` tokens is the
tuple itself. -/
lemma lastTokens_full (n : Nat) (x : List String) (h : x.length = n) :
    lastTokens n x = x := by
  unfold lastTokens
  rw [h]
  simp

/-- C3 (confirmed): `collapse_multiindex` raises exactly when the
full-length label tuples themselves contain a duplicate; equivalently, no
suffix length up to `L` gives pairwise-distinct truncations. -/
theorem collapse_multiindex_error_iff (nlevels : Nat)
    (midx : List (List String)) (sep : String)
    (hpos : 1 ≤ nlevels) (hlen : ∀ x ∈ midx, x.length = nlevels) :
    collapse_multiindex nlevels midx sep = none ↔ ¬ midx.Nodup := by
  have hmap : List.map (lastTokens nlevels) midx = midx := by
    have h1 : ∀ x ∈ midx, lastTokens nlevels x = id x :=
      fun x hx => lastTokens_full nlevels x (hlen x hx)
    rw [List.map_congr_left h1, List.map_id]
  constructor
  · intro h
    rcases hfind : firstUniqueSuffix midx nlevels 0 with _ | i
    · have hall := (firstUniqueSuffix_none_iff midx nlevels 0).mp hfind
      have hj := hall (nlevels - 1) (Nat.zero_le _) (by omega)
      have hn : nlevels - 1 + 1 = nlevels := by omega
      rw [hn, hmap] at hj
      rw [← is_unique_iff_nodup]
      simp [hj]
    · unfold collapse_multiindex at h
      rw [hfind] at h
      exact absurd h (by simp)
  · intro hnd
    unfold collapse_multiindex
    rcases hfind : firstUniqueSuffix midx nlevels 0 with _ | i
    · rfl
    · exfalso
      obtain ⟨_, _, h3, _⟩ := firstUniqueSuffix_some_spec midx nlevels 0 i hfind
      have hmnd : (List.map (lastTokens (i + 1)) midx).Nodup :=
        (is_unique_iff_nodup _).mp h3
      exact hnd (List.Nodup.of_map _ hmnd)

/-- Witness for C3 at a concrete input: `[(a,), (a,)]` has duplicate
full-length tuples and collapsing it raises. -/
theorem collapse_multiindex_error_iff_witness :
    collapse_multiindex 1 [["a"], ["a"]] "_" = none ↔ ¬ ([["a"], ["a"]] : List (List String)).Nodup :=
  collapse_multiindex_error_iff 1 [["a"], ["a"]] "_" (by decide) (by decide)

/-- The character data of a joined string is the character-level join of
the token data. -/
lemma sepJoin_data (sep : String) : ∀ l : List String,
    (sepJoin sep l).data = joinL sep.data (l.map String.data)
  | [] => rfl
  | [_] => rfl
  | x :: y :: rest => by
    simp only [sepJoin, joinL, List.map, String.data_append,
      sepJoin_data sep (y :: rest), List.append_assoc]

/-- Splitting a character list at a separator character that occurs in
neither prefix part is unambiguous. -/
lemma append_single_inj (c : Char) : ∀ (x y a b : List Char),
    c ∉ x → c ∉ y → x ++ c :: a = y ++ c :: b → x = y ∧ a = b := by
  intro x
  induction x with
  | nil =>
    intro y a b _ hy h
    cases y with
    | nil =>
      simpa using h
    | cons y0 ys =>
      simp only [List.nil_append, List.cons_append, List.cons.injEq] at h
      exact absurd (h.1 ▸ List.mem_cons_self y0 ys) hy
  | cons x0 xs ih =>
    intro y a b hx hy h
    cases y with
    | nil =>
      simp only [List.cons_append, List.nil_append, List.cons.injEq] at h
      exact absurd (h.1.symm ▸ List.mem_cons_self x0 xs) hx
    | cons y0 ys =>
      simp only [List.cons_append, List.cons.injEq] at h
      obtain ⟨rfl, htail⟩ := h
      have hx2 : c ∉ xs := fun hm => hx (List.mem_cons_of_mem _ hm)
      have hy2 : c ∉ ys := fun hm => hy (List.mem_cons_of_mem _ hm)
      obtain ⟨h1, h2⟩ := ih ys a b hx2 hy2 htail
      exact ⟨by rw [h1], h2⟩

/-- Joining equal numbers of separator-free token lists with a one-character
separator is injective. -/
lemma joinL_single_inj (c : Char) : ∀ xs ys : List (List Char),
    xs.length = ys.length → (∀ t ∈ xs, c ∉ t) → (∀ t ∈ ys, c ∉ t) →
    joinL [c] xs = joinL [c] ys → xs = ys := by
  intro xs
  induction xs with
  | nil =>
    intro ys hlen _ _ _
    cases ys with
    | nil => rfl
    | cons _ _ => simp at hlen
  | cons x xs ih =>
    intro ys hlen hx hy hj
    cases ys with
    | nil => simp at hlen
    | cons y ys' =>
      cases xs with
      | nil =>
        cases ys' with
        | nil =>
          simp only [joinL] at hj
          rw [hj]
        | cons _ _ => simp at hlen
      | cons x2 r =>
        cases ys' with
        | nil => simp at hlen
        | cons y2 s =>
          simp only [joinL] at hj
          have hj2 : x ++ c :: joinL [c] (x2 :: r) = y ++ c :: joinL [c] (y2 :: s) := by
            simpa [List.append_assoc] using hj
          have hcx : c ∉ x := hx x (List.mem_cons_self _ _)
          have hcy : c ∉ y := hy y (List.mem_cons_self _ _)
          obtain ⟨rfl, htail⟩ := append_single_inj c x y _ _ hcx hcy hj2
          have hx2 : ∀ t ∈ x2 :: r, c ∉ t := fun t ht => hx t (List.mem_cons_of_mem _ ht)
          have hy2 : ∀ t ∈ y2 :: s, c ∉ t := fun t ht => hy t (List.mem_cons_of_mem _ ht)
          have := ih (y2 :: s) (by simpa using hlen) hx2 hy2 htail
          rw [this]

/-- A length-`k` suffix of a tuple with at least `k` tokens has exactly `k`
tokens. -/
lemma lastTokens_length (k : Nat) (x : List String) (h : k ≤ x.length) :
    (lastTokens k x).length = k := by
  unfold lastTokens
  rw [List.length_drop]
  omega

/-- Every token of a suffix is a token of the original tuple. -/
lemma lastTokens_mem (k : Nat) (x : List String) (t : String)
    (h : t ∈ lastTokens k x) : t ∈ x :=
  List.mem_of_mem_drop h

/-- C2 counterexample: on the labeling
`[(a_b, c), (a, b_c), (q, c)]` the collapser succeeds (the full tuples are
pairwise distinct) yet returns the string `a_b_c` twice, so the output is
not pairwise unique. -/
theorem collapse_multiindex_duplicate_output :
    collapse_multiindex 2 [["a_b", "c"], ["a", "b_c"], ["q", "c"]] "_" =
      some ["a_b_c", "a_b_c", "q_c"] ∧
    ¬ (["a_b_c", "a_b_c", "q_c"] : List String).Nodup :=
  ⟨by decide, by decide⟩

/-- C2 (amended, confirmed): whenever `collapse_multiindex` succeeds, it
returns exactly one string per column — the join of that column's chosen
suffix — in the original column order; and these strings are pairwise
unique provided the separator is a single character that occurs in no
label token. -/
theorem collapse_multiindex_output_unique (nlevels : Nat)
    (midx : List (List String)) (sep : String) (out : List String)
    (h : collapse_multiindex nlevels midx sep = some out) :
    out.length = midx.length ∧
    (∃ i, 1 ≤ i ∧ i ≤ nlevels ∧
      out = midx.map (fun x => sepJoin sep (lastTokens i x))) ∧
    (∀ c : Char, sep.data = [c] →
      (∀ x ∈ midx, x.length = nlevels) →
      (∀ x ∈ midx, ∀ t ∈ x, c ∉ t.data) →
      out.Nodup) := by
  unfold collapse_multiindex at h
  rcases hfind : firstUniqueSuffix midx nlevels 0 with _ | i
  · rw [hfind] at h
    exact absurd h (by simp)
  · rw [hfind] at h
    obtain rfl : midx.map (fun x => sepJoin sep (lastTokens (i + 1) x)) = out :=
      Option.some.inj h
    obtain ⟨_, hi2, hi3, _⟩ := firstUniqueSuffix_some_spec midx nlevels 0 i hfind
    refine ⟨List.length_map _ _, ⟨i + 1, by omega, by omega, rfl⟩, ?_⟩
    intro c hsep hlen hfree
    have hS : (midx.map (lastTokens (i + 1))).Nodup := (is_unique_iff_nodup _).mp hi3
    have hmm : midx.map (fun x => sepJoin sep (lastTokens (i + 1) x)) =
        (midx.map (lastTokens (i + 1))).map (sepJoin sep) := by
      rw [List.map_map]
      rfl
    rw [hmm]
    refine hS.map_on ?_
    intro s hs s' hs' hjoin
    obtain ⟨x, hxmem, rfl⟩ := List.mem_map.mp hs
    obtain ⟨x', hxmem', rfl⟩ := List.mem_map.mp hs'
    have hdata : joinL [c] ((lastTokens (i + 1) x).map String.data) =
        joinL [c] ((lastTokens (i + 1) x').map String.data) := by
      have := congrArg String.data hjoin
      rwa [sepJoin_data, sepJoin_data, hsep] at this
    have hxl : (lastTokens (i + 1) x).length = i + 1 :=
      lastTokens_length _ _ (by rw [hlen x hxmem]; omega)
    have hxl' : (lastTokens (i + 1) x').length = i + 1 :=
      lastTokens_length _ _ (by rw [hlen x' hxmem']; omega)
    have hfx : ∀ t ∈ (lastTokens (i + 1) x).map String.data, c ∉ t := by
      intro t ht
      obtain ⟨u, hu, rfl⟩ := List.mem_map.mp ht
      exact hfree x hxmem u (lastTokens_mem _ _ _ hu)
    have hfx' : ∀ t ∈ (lastTokens (i + 1) x').map String.data, c ∉ t := by
      intro t ht
      obtain ⟨u, hu, rfl⟩ := List.mem_map.mp ht
      exact hfree x' hxmem' u (lastTokens_mem _ _ _ hu)
    have hmapeq := joinL_single_inj c _ _
      (by rw [List.length_map, List.length_map, hxl, hxl']) hfx hfx' hdata
    have hdinj : Function.Injective String.data := by
      intro a b hab
      cases a
      cases b
      exact congrArg String.mk hab
    exact List.map_injective_iff.mpr hdinj hmapeq

/-- Witness for the amended C2 at a concrete input: collapsing
`[(a,1), (a,2)]` with separator `_` yields one joined suffix per column in
column order, pairwise unique since `_` occurs in no token. -/
theorem collapse_multiindex_output_unique_witness :
    (["1", "2"] : List String).length =
      ([["a", "1"], ["a", "2"]] : List (List String)).length ∧
    (∃ i, 1 ≤ i ∧ i ≤ 2 ∧
      (["1", "2"] : List String) = [["a", "1"], ["a", "2"]].map
        (fun x => sepJoin "_" (lastTokens i x))) ∧
    (∀ c : Char, ("_" : String).data = [c] →
      (∀ x ∈ ([["a", "1"], ["a", "2"]] : List (List String)), x.length = 2) →
      (∀ x ∈ ([["a", "1"], ["a", "2"]] : List (List String)), ∀ t ∈ x, c ∉ t.data) →
      (["1", "2"] : List String).Nodup) :=
  collapse_multiindex_output_unique 2 [["a", "1"], ["a", "2"]] "_" ["1", "2"]
    (by decide)

/-! ## Index guard (`regular_index`) -/

/-- A pandas row index: either a regular range index — the form documented
by `regular_index` as `RangeIndex(start=0, stop=n, step=1)`, whose labels
are the dense ordered sequence `0..n-1` — or a materialised sequence of
arbitrary (possibly duplicate, possibly unordered) labels. Regularity is
decided structurally, mirroring `isinstance(df.index, pd.RangeIndex)`. -/
inductive Index where
  | rangeIdx (n : Nat)
  | labels (ls : List Int)
deriving DecidableEq, Repr

/-- Number of row labels, `len(df.index)`. -/
def Index.length : Index → Nat
  | rangeIdx n => n
  | labels ls => ls.length

/-- The label values of an index. A range index has labels `0..n-1`. -/
def Index.toLabels : Index → List Int
  | rangeIdx n => (List.range n).map Int.ofNat
  | labels ls => ls

/-- `isinstance(df.index, pd.RangeIndex)`. -/
def Index.isRangeIdx : Index → Bool
  | rangeIdx _ => true
  | labels _ => false

/-- A dataframe, reduced to the parts `regular_index` touches: its row
index and its row data (one value per row). -/
structure DataFrame where
  index : Index
  data : List Int
deriving DecidableEq, Repr

/-- `df.reset_index(drop=True, inplace=True)`: replace the index with a
regular range index of the current row count, keeping the data. -/
def resetIndexDrop (df : DataFrame) : DataFrame :=
  { df with index := Index.rangeIdx df.index.length }

/-- `original_index = [df.index for df in dfs]`. -/
def originalIndex (dfs : List DataFrame) : List Index :=
  dfs.map (·.index)

/-- `have_bad_index = [not isinstance(df.index, pd.RangeIndex) for df in dfs]`. -/
def haveBadIndex (dfs : List DataFrame) : List Bool :=
  dfs.map (fun df => !df.index.isRangeIdx)

/-- The entry loop: `for df, bad in zip(dfs, have_bad_index): if bad:
df.reset_index(drop=True, inplace=True)`. -/
def enterRegularIndex (dfs : List DataFrame) : List DataFrame :=
  dfs.map (fun df => if df.index.isRangeIdx then df else resetIndexDrop df)

/-- The `finally` loop: `for df, bad, idx in zip(dfs, have_bad_index,
original_index): if bad and len(df.index) == len(idx): df.index = idx`.
Structures beyond the zipped range are left untouched. -/
def exitRestore : List DataFrame → List Bool → List Index → List DataFrame
  | df :: dfs, b :: bs, idx :: idxs =>
      (if b && (df.index.length == idx.length)
        then { df with index := idx } else df) :: exitRestore dfs bs idxs
  | dfs, _, _ => dfs

/-- The whole `with regular_index(*dfs)` block. The wrapped operation
`body` acts on the entered structures and either finishes normally or
raises (`some e`); the `finally` clause restores indices on both paths and
the exception, if any, propagates. -/
def regularIndexRun {E : Type} (dfs : List DataFrame)
    (body : List DataFrame → List DataFrame × Option E) :
    List DataFrame × Option E :=
  match body (enterRegularIndex dfs) with
  | (dfs2, none) => (exitRestore dfs2 (haveBadIndex dfs) (originalIndex dfs), none)
  | (dfs2, some e) => (exitRestore dfs2 (haveBadIndex dfs) (originalIndex dfs), some e)

/-- Both exit paths of `regularIndexRun` run the restoration and pass the
outcome of the body through unchanged. -/
lemma regularIndexRun_eq {E : Type} (dfs : List DataFrame)
    (body : List DataFrame → List DataFrame × Option E) :
    regularIndexRun dfs body =
      (exitRestore (body (enterRegularIndex dfs)).1 (haveBadIndex dfs)
        (originalIndex dfs), (body (enterRegularIndex dfs)).2) := by
  unfold regularIndexRun
  rcases hbe : body (enterRegularIndex dfs) with ⟨dfs2, err⟩
  cases err with
  | none => rfl
  | some e => rfl

/-- Position-wise behaviour of the restoration loop. -/
lemma exitRestore_getElem (dfs : List DataFrame) (bad : List Bool)
    (orig : List Index) (k : Nat) (df : DataFrame) (b : Bool) (idx : Index)
    (hdf : dfs[k]? = some df) (hb : bad[k]? = some b) (hidx : orig[k]? = some idx) :
    (exitRestore dfs bad orig)[k]? =
      some (if b && (df.index.length == idx.length)
        then { df with index := idx } else df) := by
  induction dfs generalizing bad orig k with
  | nil => simp at hdf
  | cons d ds ih =>
    cases bad with
    | nil => simp at hb
    | cons b0 bs =>
      cases orig with
      | nil => simp at hidx
      | cons i0 is =>
        cases k with
        | zero =>
          simp only [List.getElem?_cons_zero, Option.some.injEq] at hdf hb hidx
          subst hdf
          subst hb
          subst hidx
          simp [exitRestore]
        | succ k =>
          simp only [List.getElem?_cons_succ] at hdf hb hidx
          simpa [exitRestore] using ih bs is k hdf hb hidx

/-- Positions whose structure was not tracked as bad are untouched by the
restoration loop. -/
lemma exitRestore_getElem_of_not_bad (dfs : List DataFrame) (bad : List Bool)
    (orig : List Index) (k : Nat) (hb : bad[k]? = some false) :
    (exitRestore dfs bad orig)[k]? = dfs[k]? := by
  induction dfs generalizing bad orig k with
  | nil =>
    cases bad <;> cases orig <;> rfl
  | cons d ds ih =>
    cases bad with
    | nil => simp at hb
    | cons b0 bs =>
      cases orig with
      | nil => rfl
      | cons i0 is =>
        cases k with
        | zero =>
          simp only [List.getElem?_cons_zero, Option.some.injEq] at hb
          subst hb
          simp [exitRestore]
        | succ k =>
          simp only [List.getElem?_cons_succ] at hb ⊢
          simpa [exitRestore] using ih bs is k hb

/-- C7 (confirmed): on entry, a structure whose index is not regular gets a
regular `0..n-1` range index of its current length, and the guard records
its original index and tracks it as bad. -/
theorem regularIndex_enter_resets (dfs : List DataFrame) (k : Nat)
    (df : DataFrame) (hget : dfs[k]? = some df)
    (hirr : df.index.isRangeIdx = false) :
    (enterRegularIndex dfs)[k]? =
      some { df with index := Index.rangeIdx df.index.length } ∧
    (Index.rangeIdx df.index.length).toLabels =
      (List.range df.index.length).map Int.ofNat ∧
    (haveBadIndex dfs)[k]? = some true ∧
    (originalIndex dfs)[k]? = some df.index := by
  refine ⟨?_, rfl, ?_, ?_⟩
  · unfold enterRegularIndex
    rw [List.getElem?_map, hget]
    simp [hirr, resetIndexDrop]
  · unfold haveBadIndex
    rw [List.getElem?_map, hget]
    simp [hirr]
  · unfold originalIndex
    rw [List.getElem?_map, hget]
    rfl

/-- Witness for C7: a frame with duplicate labels `[3, 0, 0]` is reset to
the range index of length 3 and tracked. -/
theorem regularIndex_enter_resets_witness :
    (enterRegularIndex [⟨Index.labels [3, 0, 0], [3, 2, 1]⟩])[0]? =
      some ⟨Index.rangeIdx 3, [3, 2, 1]⟩ ∧
    (Index.rangeIdx 3).toLabels = (List.range 3).map Int.ofNat ∧
    (haveBadIndex [⟨Index.labels [3, 0, 0], [3, 2, 1]⟩])[0]? = some true ∧
    (originalIndex [⟨Index.labels [3, 0, 0], [3, 2, 1]⟩])[0]? =
      some (Index.labels [3, 0, 0]) :=
  regularIndex_enter_resets [⟨Index.labels [3, 0, 0], [3, 2, 1]⟩] 0
    ⟨Index.labels [3, 0, 0], [3, 2, 1]⟩ (by decide) (by decide)

/-- C8 (confirmed): a structure that is already regular has dense `0..n-1`
labels, is left untouched on entry, is not tracked, and is untouched again
on exit, whatever the body did. -/
theorem regularIndex_regular_noop {E : Type} (dfs : List DataFrame)
    (body : List DataFrame → List DataFrame × Option E) (k : Nat)
    (df : DataFrame) (n : Nat)
    (hget : dfs[k]? = some df) (hreg : df.index = Index.rangeIdx n) :
    df.index.toLabels = (List.range n).map Int.ofNat ∧
    (enterRegularIndex dfs)[k]? = some df ∧
    (haveBadIndex dfs)[k]? = some false ∧
    (regularIndexRun dfs body).1[k]? = (body (enterRegularIndex dfs)).1[k]? := by
  have hr : df.index.isRangeIdx = true := by
    rw [hreg]
    rfl
  have hb : (haveBadIndex dfs)[k]? = some false := by
    unfold haveBadIndex
    rw [List.getElem?_map, hget]
    simp [hr]
  refine ⟨by rw [hreg]; rfl, ?_, hb, ?_⟩
  · unfold enterRegularIndex
    rw [List.getElem?_map, hget]
    simp [hr]
  · rw [regularIndexRun_eq]
    exact exitRestore_getElem_of_not_bad _ _ _ k hb

/-- Witness for C8: a frame with range index of length 2 passes through the
guard untouched and untracked. -/
theorem regularIndex_regular_noop_witness :
    (Index.rangeIdx 2).toLabels = (List.range 2).map Int.ofNat ∧
    (enterRegularIndex [⟨Index.rangeIdx 2, [5, 6]⟩])[0]? =
      some ⟨Index.rangeIdx 2, [5, 6]⟩ ∧
    (haveBadIndex [⟨Index.rangeIdx 2, [5, 6]⟩])[0]? = some false ∧
    (regularIndexRun [⟨Index.rangeIdx 2, [5, 6]⟩]
      (fun l => (l, (none : Option Nat)))).1[0]? =
      ((fun (l : List DataFrame) => (l, (none : Option Nat)))
        (enterRegularIndex [⟨Index.rangeIdx 2, [5, 6]⟩])).1[0]? :=
  regularIndex_regular_noop [⟨Index.rangeIdx 2, [5, 6]⟩]
    (fun l => (l, (none : Option Nat))) 0 ⟨Index.rangeIdx 2, [5, 6]⟩ 2
    (by decide) rfl

/-- C4 (confirmed): a structure that entered with an irregular index and
leaves the scope with its row count equal to the original label count gets
its original index restored on exit. -/
theorem regularIndex_roundtrip_restore {E : Type} (dfs : List DataFrame)
    (body : List DataFrame → List DataFrame × Option E) (k : Nat)
    (df df2 : DataFrame)
    (hget : dfs[k]? = some df)
    (hirr : df.index.isRangeIdx = false)
    (hbody : (body (enterRegularIndex dfs)).1[k]? = some df2)
    (hcount : df2.index.length = df.index.length) :
    (regularIndexRun dfs body).1[k]? = some { df2 with index := df.index } := by
  rw [regularIndexRun_eq]
  have hb : (haveBadIndex dfs)[k]? = some true := by
    unfold haveBadIndex
    rw [List.getElem?_map, hget]
    simp [hirr]
  have ho : (originalIndex dfs)[k]? = some df.index := by
    unfold originalIndex
    rw [List.getElem?_map, hget]
    rfl
  rw [exitRestore_getElem _ _ _ k df2 true df.index hbody hb ho]
  simp [hcount]

/-- Witness for C4: with an identity body, a frame entering with labels
`[7, 7]` and leaving with two rows gets `[7, 7]` back. -/
theorem regularIndex_roundtrip_restore_witness :
    (regularIndexRun [⟨Index.labels [7, 7], [1, 2]⟩]
      (fun l => (l, (none : Option Nat)))).1[0]? =
      some ⟨Index.labels [7, 7], [1, 2]⟩ :=
  regularIndex_roundtrip_restore [⟨Index.labels [7, 7], [1, 2]⟩]
    (fun l => (l, (none : Option Nat))) 0 ⟨Index.labels [7, 7], [1, 2]⟩
    ⟨Index.rangeIdx 2, [1, 2]⟩ (by decide) (by decide) (by decide) (by decide)

/-- C5 (confirmed): a structure that entered with an irregular index and
leaves the scope as a frame with a regular index of a different length is
not restored: the regular index stays and the original labels are
abandoned. -/
theorem regularIndex_abandons_original {E : Type} (dfs : List DataFrame)
    (body : List DataFrame → List DataFrame × Option E) (k : Nat)
    (df df2 : DataFrame) (m : Nat)
    (hget : dfs[k]? = some df)
    (hirr : df.index.isRangeIdx = false)
    (hbody : (body (enterRegularIndex dfs)).1[k]? = some df2)
    (hreg2 : df2.index = Index.rangeIdx m)
    (hcount : m ≠ df.index.length) :
    (regularIndexRun dfs body).1[k]? = some df2 ∧ df2.index ≠ df.index := by
  constructor
  · rw [regularIndexRun_eq]
    have hb : (haveBadIndex dfs)[k]? = some true := by
      unfold haveBadIndex
      rw [List.getElem?_map, hget]
      simp [hirr]
    have ho : (originalIndex dfs)[k]? = some df.index := by
      unfold originalIndex
      rw [List.getElem?_map, hget]
      rfl
    rw [exitRestore_getElem _ _ _ k df2 true df.index hbody hb ho]
    have hne : (df2.index.length == df.index.length) = false := by
      rw [hreg2]
      exact beq_eq_false_iff_ne.mpr hcount
    simp [hne]
  · rw [hreg2]
    intro heq
    have h1 : df.index.isRangeIdx = true := by
      rw [← heq]
      rfl
    rw [h1] at hirr
    simp at hirr

/-- Witness for C5: the body shrinks the frame from two rows to one with a
regular index; the exit leaves the shrunk frame as is, abandoning `[7, 7]`. -/
theorem regularIndex_abandons_original_witness :
    (regularIndexRun [⟨Index.labels [7, 7], [1, 2]⟩]
      (fun _ => ([⟨Index.rangeIdx 1, [9]⟩], (none : Option Nat)))).1[0]? =
      some ⟨Index.rangeIdx 1, [9]⟩ ∧
    Index.rangeIdx 1 ≠ Index.labels [7, 7] :=
  regularIndex_abandons_original [⟨Index.labels [7, 7], [1, 2]⟩]
    (fun _ => ([⟨Index.rangeIdx 1, [9]⟩], (none : Option Nat))) 0
    ⟨Index.labels [7, 7], [1, 2]⟩ ⟨Index.rangeIdx 1, [9]⟩ 1
    (by decide) (by decide) (by decide) rfl (by decide)

/-- C6 (confirmed): when the wrapped operation raises, the restoration
still runs and the exception propagates to the caller unchanged. -/
theorem regularIndex_finally_on_raise {E : Type} (dfs : List DataFrame)
    (body : List DataFrame → List DataFrame × Option E) (e : E)
    (herr : (body (enterRegularIndex dfs)).2 = some e) :
    (regularIndexRun dfs body).2 = some e ∧
    (regularIndexRun dfs body).1 =
      exitRestore (body (enterRegularIndex dfs)).1 (haveBadIndex dfs)
        (originalIndex dfs) := by
  rw [regularIndexRun_eq]
  exact ⟨herr, rfl⟩

/-- Witness for C6: a body that raises error `3` still has its frames put
through the restoration loop and the error reaches the caller. -/
theorem regularIndex_finally_on_raise_witness :
    (regularIndexRun [⟨Index.labels [7, 7], [1, 2]⟩]
      (fun l => (l, some 3))).2 = some 3 ∧
    (regularIndexRun [⟨Index.labels [7, 7], [1, 2]⟩] (fun l => (l, some 3))).1 =
      exitRestore ((fun (l : List DataFrame) => (l, some (3 : Nat)))
        (enterRegularIndex [⟨Index.labels [7, 7], [1, 2]⟩])).1
        (haveBadIndex [⟨Index.labels [7, 7], [1, 2]⟩])
        (originalIndex [⟨Index.labels [7, 7], [1, 2]⟩]) :=
  regularIndex_finally_on_raise [⟨Index.labels [7, 7], [1, 2]⟩]
    (fun l => (l, some 3)) 3 rfl

/-! ## Order-preserving `unique` -/

/-- The comprehension `[make_seen(x) for x in lst if x not in seen]` of
`unique`: keep `x` when it is not in `seen`, adding each kept element to
`seen`. -/
def uniqueAux {α : Type} [DecidableEq α] (seen : List α) : List α → List α
  | [] => []
  | x :: xs =>
      if x ∈ seen then uniqueAux seen xs
      else x :: uniqueAux (x :: seen) xs

/-- `unique(lst)`: the elements of `lst` in input order with every later
duplicate dropped; the `seen` set starts empty. -/
def unique {α : Type} [DecidableEq α] (lst : List α) : List α :=
  uniqueAux [] lst

/-- Spec-side characterization of the order-preserving unique filter: keep
the first occurrence of each distinct value, in first-seen order. -/
def firstSeenDedup {α : Type} [DecidableEq α] : List α → List α
  | [] => []
  | x :: xs => x :: firstSeenDedup (xs.filter (fun y => y ≠ x))
termination_by l => l.length
decreasing_by
  simp only [List.length_cons]
  exact Nat.lt_succ_of_le (List.length_filter_le _ _)

/-- The `seen`-set loop equals first-occurrence deduplication of the not
yet seen elements. -/
lemma uniqueAux_eq_firstSeenDedup {α : Type} [DecidableEq α] :
    ∀ (l : List α) (seen : List α),
      uniqueAux seen l = firstSeenDedup (l.filter (fun y => decide (y ∉ seen))) := by
  intro l
  induction l with
  | nil =>
    intro seen
    simp [uniqueAux, firstSeenDedup]
  | cons x xs ih =>
    intro seen
    by_cases hx : x ∈ seen
    · rw [show uniqueAux seen (x :: xs) = uniqueAux seen xs by simp [uniqueAux, hx]]
      rw [show (x :: xs).filter (fun y => decide (y ∉ seen)) =
            xs.filter (fun y => decide (y ∉ seen)) by simp [List.filter, hx]]
      exact ih seen
    · rw [show uniqueAux seen (x :: xs) = x :: uniqueAux (x :: seen) xs by
        simp [uniqueAux, hx]]
      rw [show (x :: xs).filter (fun y => decide (y ∉ seen)) =
            x :: xs.filter (fun y => decide (y ∉ seen)) by simp [List.filter, hx]]
      rw [ih (x :: seen)]
      have hfilter : (xs.filter (fun y => decide (y ∉ seen))).filter (fun y => y ≠ x) =
          xs.filter (fun y => decide (y ∉ x :: seen)) := by
        rw [List.filter_filter]
        apply List.filter_congr
        intro a _
        by_cases hax : a = x
        · subst hax
          simp
        · by_cases has : a ∈ seen <;> simp [hax, has]
      rw [firstSeenDedup, hfilter]

/-- C9 (confirmed): `unique` keeps, for each distinct value of the input,
only its first occurrence, in first-seen order; in particular
`unique(['x', 'y', 'x', 'z'])` returns `['x', 'y', 'z']`. -/
theorem unique_keeps_first_occurrences :
    (∀ (α : Type) [DecidableEq α] (lst : List α),
      unique lst = firstSeenDedup lst) ∧
    unique ["x", "y", "x", "z"] = ["x", "y", "z"] := by
  constructor
  · intro α _ lst
    rw [unique, uniqueAux_eq_firstSeenDedup lst []]
    congr 1
    apply List.filter_eq_self.mpr
    intro a _
    simp
  · decide

/-! ## Temporary dictionary key (`temporary_key`) -/

/-- Python `d[key]` lookup (also deciding `key in d`). -/
def dictLookup {K V : Type} [DecidableEq K] : List (K × V) → K → Option V
  | [], _ => none
  | (k0, v0) :: rest, k => if k0 = k then some v0 else dictLookup rest k

/-- Python `d[key] = value`: replace the existing binding or append a new
one. -/
def dictSet {K V : Type} [DecidableEq K] : List (K × V) → K → V → List (K × V)
  | [], k, v => [(k, v)]
  | (k0, v0) :: rest, k, v =>
      if k0 = k then (k, v) :: rest else (k0, v0) :: dictSet rest k v

/-- Python `del d[key]`: remove the binding, or `none` for the `KeyError`
raised when the key is absent. -/
def dictDel {K V : Type} [DecidableEq K] : List (K × V) → K → Option (List (K × V))
  | [], _ => none
  | (k0, v0) :: rest, k =>
      if k0 = k then some rest
      else (dictDel rest k).map (fun d => (k0, v0) :: d)

/-- Outcome of a `with temporary_key(...)` block. -/
inductive TempKeyOutcome (E : Type) where
  | ok
  | raised (e : E)
  | keyErrorRaised
deriving DecidableEq, Repr

/-- The `temporary_key(d, key, value)` context manager: set `d[key] =
value`, run the body (which may mutate the dict and may raise), then in
`finally` run `del d[key]`; a delete of an absent key raises `KeyError`,
superseding the body outcome. -/
def temporary_key {K V E : Type} [DecidableEq K] (d : List (K × V)) (k : K)
    (v : V) (body : List (K × V) → List (K × V) × Option E) :
    List (K × V) × TempKeyOutcome E :=
  let r := body (dictSet d k v)
  match dictDel r.1 k with
  | some d2 =>
      (d2, match r.2 with
        | none => TempKeyOutcome.ok
        | some e => TempKeyOutcome.raised e)
  | none => (r.1, TempKeyOutcome.keyErrorRaised)

/-- When `del` raises `KeyError`, the key was already absent. -/
lemma dictDel_none_lookup {K V : Type} [DecidableEq K]
    (d : List (K × V)) (k : K) (h : dictDel d k = none) :
    dictLookup d k = none := by
  induction d with
  | nil => rfl
  | cons p rest ih =>
    obtain ⟨k0, v0⟩ := p
    by_cases hk : k0 = k
    · rw [dictDel, if_pos hk] at h
      exact absurd h (by simp)
    · rw [dictDel, if_neg hk, Option.map_eq_none'] at h
      rw [dictLookup, if_neg hk]
      exact ih h

/-- A key that is not among the keys of the dict looks up to nothing. -/
lemma dictLookup_not_mem {K V : Type} [DecidableEq K]
    (d : List (K × V)) (k : K) (h : k ∉ d.map Prod.fst) :
    dictLookup d k = none := by
  induction d with
  | nil => rfl
  | cons p rest ih =>
    obtain ⟨k0, v0⟩ := p
    simp only [List.map_cons, List.mem_cons] at h
    push_neg at h
    rw [dictLookup, if_neg (fun he => h.1 he.symm)]
    exact ih h.2

/-- Deleting a key from a dict with pairwise-distinct keys removes it. -/
lemma dictDel_some_lookup {K V : Type} [DecidableEq K]
    (d : List (K × V)) (k : K) (d2 : List (K × V))
    (hwf : (d.map Prod.fst).Nodup) (h : dictDel d k = some d2) :
    dictLookup d2 k = none := by
  induction d generalizing d2 with
  | nil => exact absurd h (by simp [dictDel])
  | cons p rest ih =>
    obtain ⟨k0, v0⟩ := p
    simp only [List.map_cons, List.nodup_cons] at hwf
    by_cases hk : k0 = k
    · rw [dictDel, if_pos hk] at h
      obtain rfl : rest = d2 := Option.some.inj h
      subst hk
      exact dictLookup_not_mem _ _ hwf.1
    · rw [dictDel, if_neg hk] at h
      rcases hdel : dictDel rest k with _ | d2'
      · rw [hdel] at h
        exact absurd h (by simp)
      · rw [hdel] at h
        obtain rfl : (k0, v0) :: d2' = d2 := Option.some.inj (by simpa using h)
        rw [dictLookup, if_neg hk]
        exact ih d2' hwf.2 hdel

/-- C10 (confirmed): after a `temporary_key(d, k, v)` scope exits — whether
the body finished normally or raised — the key `k` is absent from the
dict; in particular a prior binding of `k` is deleted, not restored. The
dict produced by the body is assumed to have pairwise-distinct keys, as
every Python dict does. -/
theorem temporary_key_removes_key {K V E : Type} [DecidableEq K]
    (d : List (K × V)) (k : K) (v : V)
    (body : List (K × V) → List (K × V) × Option E)
    (hwf : ((body (dictSet d k v)).1.map Prod.fst).Nodup) :
    dictLookup (temporary_key d k v body).1 k = none := by
  unfold temporary_key
  simp only []
  rcases hdel : dictDel (body (dictSet d k v)).1 k with _ | d2
  · simp only [hdel]
    exact dictDel_none_lookup _ _ hdel
  · simp only [hdel]
    exact dictDel_some_lookup _ _ d2 hwf hdel

/-- Witness for C10: the dict `{1: 10}` gets the temporary binding
`1 ↦ 99`; the body raises error `5`; after exit the key `1` is gone, and
the prior value `10` is not restored. -/
theorem temporary_key_removes_key_witness :
    dictLookup (temporary_key [(1, 10)] 1 99
      (fun d => (d, some (5 : Nat)))).1 1 = none :=
  temporary_key_removes_key [(1, 10)] 1 99 (fun d => (d, some 5)) (by decide)

end Plydata
